import Mathlib

/-!
Verification development for the EncryptedOKRPlatformFHE contract
(the confidential-ledger / homomorphic-aggregation / decryption-oracle core).

The contract is shallowly embedded: `euint32` ciphertexts are modelled by the
plaintext-mirroring semantics the specification prescribes for the opaque
ciphertext capability (a handle is either uninitialized, or initialized and
carrying a plaintext value; homomorphic addition adds the mirrored plaintexts
modulo 2^32).  Solidity mappings are modelled as association lists with the
mapping's zero-value default, `msg.sender` and `block.timestamp` are explicit
parameters, `require` failures are `Except.error` (an EVM revert: no state
change, no events), and emitted events are accumulated in an event log.
-/

namespace EncryptedOKRPlatform

/-- Addresses are modelled as natural numbers; 0 is the zero address. -/
abbrev Address := Nat

/-- The bytes32 team identifiers are modelled as natural numbers; 0 is bytes32(0). -/
abbrev Bytes32 := Nat

/-- Modelled from the spec: the opaque ciphertext capability's `euint32` under a
plaintext-mirroring model.  A handle is either uninitialized (`isInit = false`,
the all-zero handle a caller may pass and the default of an unset mapping slot)
or initialized and mirroring a plaintext `val`. -/
structure Euint32 where
  isInit : Bool
  val : Nat
deriving DecidableEq

/-- The uninitialized handle `euint32.wrap(0)` (also the mapping default). -/
def Euint32.uninit : Euint32 := ⟨false, 0⟩

namespace FHE

/-- Modelled from the spec's capability contract: `FHE.asEuint32`, the trivial
encryption of a plaintext (always initialized). -/
def asEuint32 (n : Nat) : Euint32 := ⟨true, n % 2 ^ 32⟩

/-- Modelled from the spec's capability contract: `FHE.add`, homomorphic
addition; the mirrored plaintexts add modulo 2^32 and the result is an
initialized handle. -/
def add (a b : Euint32) : Euint32 := ⟨true, (a.val + b.val) % 2 ^ 32⟩

/-- Modelled from the spec's capability contract: `FHE.isInitialized`, true
exactly on non-zero (initialized) handles. -/
def isInitializedE (a : Euint32) : Bool := a.isInit

end FHE

/-- Modelled from the spec: decryption in the plaintext-mirroring model reads
back the mirrored plaintext. -/
def decryptMirror (a : Euint32) : Nat := a.val

/-- The `EncryptedOKR` struct of the contract. -/
structure EncryptedOKR where
  id : Nat
  owner : Address
  encryptedObjective : Euint32
  encryptedKeyResults : Euint32
  encryptedProgress : Euint32
  timestamp : Nat
deriving DecidableEq

/-- The zero value of `EncryptedOKR`: what an unset mapping slot holds. -/
def zeroOKR : EncryptedOKR := ⟨0, 0, Euint32.uninit, Euint32.uninit, Euint32.uninit, 0⟩

/-- The `EncryptedAggregate` struct of the contract. -/
structure EncryptedAggregate where
  idHash : Bytes32
  encryptedSum : Euint32
  lastUpdated : Nat
deriving DecidableEq

/-- The zero value of `EncryptedAggregate`: what an unset mapping slot holds. -/
def zeroAggregate : EncryptedAggregate := ⟨0, Euint32.uninit, 0⟩

/-- Association-list lookup modelling a Solidity mapping read (no default). -/
def lookupA {β : Type} (m : List (Nat × β)) (k : Nat) : Option β :=
  match m.find? (fun p => p.1 == k) with
  | some p => some p.2
  | none => none

/-- Mapping read with the mapping's zero-value default. -/
def mget {β : Type} (m : List (Nat × β)) (k : Nat) (d : β) : β :=
  (lookupA m k).getD d

/-- Mapping write `m[k] = v`. -/
def mset {β : Type} (m : List (Nat × β)) (k : Nat) (v : β) : List (Nat × β) :=
  (k, v) :: m.filter (fun p => !(p.1 == k))

/-- The events the contract can emit. -/
inductive Event where
  | OKRSubmitted (id : Nat) (owner : Address) (timestamp : Nat)
  | TeamAggregated (teamId : Bytes32) (timestamp : Nat)
  | DecryptionRequested (requestId : Nat)
  | AggregateDecrypted (teamId : Bytes32) (clearValue : Nat)
deriving DecidableEq

/-- Revert reasons of the fallible operations.  `EmptyAggregate` is the
"No aggregate" require of `requestTeamAggregateDecryption`; `InvalidTeam` is
the "Invalid team" require of `decryptTeamAggregate` (the specification's
`UnknownRequest`, since the lookup of an unissued id yields team 0);
`InvalidProof` is a `FHE.checkSignatures` failure; `DecodeFailure` is an
`abi.decode` revert; `Unauthorized` is a denial by the (spec-modelled)
authorization capability. -/
inductive Err where
  | Unauthorized
  | EmptyAggregate
  | InvalidTeam
  | InvalidProof
  | DecodeFailure
deriving DecidableEq

/-- The contract's storage, together with the emitted-event log and the
decryption oracle's request-id allocator.  `nextRequestId` is modelled from the
spec: `FHE.requestDecryption` is external library code and the spec says it
allocates a fresh `requestId`; a counter realizes that allocation.  The unused
`requestToOkrId` mapping of the source (declared, never read or written) is
omitted. -/
structure ContractState where
  okrCount : Nat
  encryptedOkrs : List (Nat × EncryptedOKR)
  teamAggregates : List (Nat × EncryptedAggregate)
  teamMembers : List (Nat × List Address)
  requestToTeamId : List (Nat × Bytes32)
  nextRequestId : Nat
  eventLog : List Event
deriving DecidableEq

/-- The state of a freshly deployed contract. -/
def initialState : ContractState := ⟨0, [], [], [], [], 0, []⟩

/-- Mapping read `encryptedOkrs[i]` with the zero-struct default. -/
def getOkr (s : ContractState) (i : Nat) : EncryptedOKR :=
  mget s.encryptedOkrs i zeroOKR

/-- The function `submitEncryptedOKR`: increments `okrCount`, stores the new
record under the new id, appends the sender to the team's member list and
emits `OKRSubmitted`.  (The `onlyOwner` / access-control modifiers of the
source are empty stubs and check nothing.) -/
def submitEncryptedOKR (s : ContractState) (sender : Address) (now : Nat)
    (encryptedObjective encryptedKeyResults encryptedProgress : Euint32)
    (teamId : Bytes32) : ContractState :=
  let newId := s.okrCount + 1
  { s with
    okrCount := newId
    encryptedOkrs := mset s.encryptedOkrs newId
      ⟨newId, sender, encryptedObjective, encryptedKeyResults, encryptedProgress, now⟩
    teamMembers := mset s.teamMembers teamId (mget s.teamMembers teamId [] ++ [sender])
    eventLog := s.eventLog ++ [Event.OKRSubmitted newId sender now] }

/-- The loop of `findLatestEncryptedProgress`: scan record ids from `n` down
to 1, returning the first (hence greatest-id) record whose owner matches;
`FHE.asEuint32 0` when none does. -/
def findLatestAux (s : ContractState) (owner : Address) : Nat → Euint32
  | 0 => FHE.asEuint32 0
  | n + 1 =>
    let e := getOkr s (n + 1)
    if e.owner == owner then e.encryptedProgress else findLatestAux s owner n

/-- The function `findLatestEncryptedProgress`: scan from `okrCount` down to 1. -/
def findLatestEncryptedProgress (s : ContractState) (owner : Address) : Euint32 :=
  findLatestAux s owner s.okrCount

/-- The loop of `recomputeTeamAggregate`: for each member in list order,
resolve the latest progress and add it to the accumulator, guarded by
`FHE.isInitialized`. -/
def recomputeAcc (s : ContractState) : List Address → Euint32 → Euint32
  | [], acc => acc
  | m :: ms, acc =>
    let memberProgress := findLatestEncryptedProgress s m
    if FHE.isInitializedE memberProgress then
      recomputeAcc s ms (FHE.add acc memberProgress)
    else
      recomputeAcc s ms acc

/-- The function `recomputeTeamAggregate`: fold the member list into an
encrypted sum, store `⟨teamId, sum, now⟩` as the team's aggregate and emit
`TeamAggregated`. -/
def recomputeTeamAggregate (s : ContractState) (now : Nat) (teamId : Bytes32) :
    ContractState :=
  let acc := recomputeAcc s (mget s.teamMembers teamId []) (FHE.asEuint32 0)
  { s with
    teamAggregates := mset s.teamAggregates teamId ⟨teamId, acc, now⟩
    eventLog := s.eventLog ++ [Event.TeamAggregated teamId now] }

/-- The function `requestTeamAggregateDecryption`: requires an initialized
stored sum (revert "No aggregate" otherwise), allocates the next request id,
records the request-to-team mapping and emits `DecryptionRequested`.  (The
`onlyTeamMember` modifier of the source is an empty stub and checks nothing.) -/
def requestTeamAggregateDecryption (s : ContractState) (teamId : Bytes32) :
    Except Err ContractState :=
  let agg := mget s.teamAggregates teamId zeroAggregate
  if FHE.isInitializedE agg.encryptedSum then
    let reqId := s.nextRequestId
    Except.ok { s with
      requestToTeamId := mset s.requestToTeamId reqId teamId
      nextRequestId := s.nextRequestId + 1
      eventLog := s.eventLog ++ [Event.DecryptionRequested reqId] }
  else
    Except.error Err.EmptyAggregate

/-- Modelled from the spec: the external oracle-side proof verification
(`FHE.checkSignatures`), an opaque boolean predicate on
(requestId, cleartexts, proof). -/
structure OracleEnv where
  checkSignatures : Nat → Nat → Nat → Bool

/-- The callback `decryptTeamAggregate`: look the request's team up (an unset
slot yields team 0), require the stored aggregate's `idHash` to be non-zero
(revert "Invalid team" otherwise), verify the proof, decode the cleartext as a
`uint32` and emit `AggregateDecrypted`.  No fulfilled-flag is recorded and the
request mapping is never cleared. -/
def decryptTeamAggregate (env : OracleEnv) (s : ContractState)
    (requestId cleartexts proof : Nat) : Except Err ContractState :=
  let teamId := mget s.requestToTeamId requestId 0
  if (mget s.teamAggregates teamId zeroAggregate).idHash ≠ 0 then
    if env.checkSignatures requestId cleartexts proof then
      if cleartexts < 2 ^ 32 then
        Except.ok { s with
          eventLog := s.eventLog ++ [Event.AggregateDecrypted teamId cleartexts] }
      else
        Except.error Err.DecodeFailure
    else
      Except.error Err.InvalidProof
  else
    Except.error Err.InvalidTeam

/-- Modelled from the spec: the injected authorization capability
(`canSubmit`, `canRequestDecryption`).  The source leaves access control as
empty placeholder modifiers ("access control stub"); the spec models it as an
externally supplied policy consulted before any state mutation. -/
structure AuthCapability where
  canSubmit : Address → Bytes32 → Bool
  canRequestDecryption : Address → Bytes32 → Bool

/-- Modelled from the spec: `submit` guarded by the authorization capability;
denial yields `Unauthorized` (a revert: no state change, no event). -/
def submitChecked (auth : AuthCapability) (s : ContractState) (caller : Address)
    (now : Nat) (encObjective encKeyResults encProgress : Euint32)
    (teamId : Bytes32) : Except Err ContractState :=
  if auth.canSubmit caller teamId then
    Except.ok (submitEncryptedOKR s caller now encObjective encKeyResults encProgress teamId)
  else
    Except.error Err.Unauthorized

/-- Modelled from the spec: `requestDecryption` guarded by the authorization
capability; denial yields `Unauthorized` (a revert: no state change, no
event). -/
def requestDecryptionChecked (auth : AuthCapability) (s : ContractState)
    (caller : Address) (teamId : Bytes32) : Except Err ContractState :=
  if auth.canRequestDecryption caller teamId then
    requestTeamAggregateDecryption s teamId
  else
    Except.error Err.Unauthorized

/-- One externally invokable operation, with its caller-controlled arguments
(`msg.sender`, `block.timestamp`, calldata). -/
inductive Op where
  | submit (sender : Address) (now : Nat)
      (encObjective encKeyResults encProgress : Euint32) (teamId : Bytes32)
  | recompute (now : Nat) (teamId : Bytes32)
  | reqDecrypt (teamId : Bytes32)
  | callback (requestId cleartexts proof : Nat)

/-- One transaction: a revert (an `Except.error`) leaves the state unchanged. -/
def step (env : OracleEnv) (s : ContractState) : Op → ContractState
  | Op.submit sender now o k p teamId => submitEncryptedOKR s sender now o k p teamId
  | Op.recompute now teamId => recomputeTeamAggregate s now teamId
  | Op.reqDecrypt teamId =>
    match requestTeamAggregateDecryption s teamId with
    | Except.ok s' => s'
    | Except.error _ => s
  | Op.callback rid c pf =>
    match decryptTeamAggregate env s rid c pf with
    | Except.ok s' => s'
    | Except.error _ => s

/-- Run a finite transaction sequence from the freshly deployed state. -/
def run (env : OracleEnv) (ops : List Op) : ContractState :=
  ops.foldl (step env) initialState

/-- A state is reachable when some finite transaction sequence produces it. -/
def Reachable (s : ContractState) : Prop :=
  ∃ env ops, run env ops = s

/-! ### Specification-side definitions

These definitions follow the specification's words rather than the source's
loop, to compare against the embedded source functions.  The latest record of
an owner is "the record with the greatest id among all records in the store
owned by that identity"; since `List.range' 1 okrCount` is ascending, the
greatest matching id is the last element of the filtered range. -/

/-- The ids (in ascending order) of the stored records owned by `m`. -/
def ownedIds (s : ContractState) (m : Address) : List Nat :=
  (List.range' 1 s.okrCount).filter (fun i => (getOkr s i).owner == m)

/-- The greatest id of a record owned by `m`, when one exists. -/
def latestOwnedId (s : ContractState) (m : Address) : Option Nat :=
  (ownedIds s m).getLast?

/-- Specification-side resolution of an owner's latest progress ciphertext:
the progress of the greatest-id owned record, the capability's zero value for
an owner with no record. -/
def specLatestProgress (s : ContractState) (m : Address) : Euint32 :=
  match latestOwnedId s m with
  | some j => (getOkr s j).encryptedProgress
  | none => FHE.asEuint32 0

/-- Specification-side plaintext of an owner's latest progress (zero for an
owner with no record). -/
def specLatestValue (s : ContractState) (m : Address) : Nat :=
  decryptMirror (specLatestProgress s m)

/-- The predicate "j is the greatest stored id owned by m" written out. -/
def IsGreatestOwnedId (s : ContractState) (m : Address) (j : Nat) : Prop :=
  1 ≤ j ∧ j ≤ s.okrCount ∧ (getOkr s j).owner = m ∧
    ∀ i, 1 ≤ i → i ≤ s.okrCount → (getOkr s i).owner = m → i ≤ j

/-- The sequence of operand pairs on which the aggregation loop invokes the
capability's homomorphic addition, in execution order, together with the final
accumulator.  It mirrors the loop of `recomputeTeamAggregate` exactly, merely
recording each `FHE.add` call it performs. -/
def recomputeAccTrace (s : ContractState) :
    List Address → Euint32 → List (Euint32 × Euint32) → Euint32 × List (Euint32 × Euint32)
  | [], acc, tr => (acc, tr)
  | m :: ms, acc, tr =>
    let memberProgress := findLatestEncryptedProgress s m
    if FHE.isInitializedE memberProgress then
      recomputeAccTrace s ms (FHE.add acc memberProgress) (tr ++ [(acc, memberProgress)])
    else
      recomputeAccTrace s ms acc tr

/-- The sequence of homomorphic-add invocations `recomputeTeamAggregate s now t`
performs. -/
def recomputeAddTrace (s : ContractState) (teamId : Bytes32) : List (Euint32 × Euint32) :=
  (recomputeAccTrace s (mget s.teamMembers teamId []) (FHE.asEuint32 0) []).2

/-! ### Mapping lemmas -/

theorem lookupA_mset_self {β : Type} (m : List (Nat × β)) (k : Nat) (v : β) :
    lookupA (mset m k v) k = some v := by
  simp [lookupA, mset, List.find?]

theorem lookupA_mset_ne {β : Type} (m : List (Nat × β)) (k k' : Nat) (v : β)
    (h : k' ≠ k) : lookupA (mset m k v) k' = lookupA m k' := by
  have hk : (k == k') = false := by simp [Ne.symm h]
  simp only [lookupA, mset, List.find?, hk]
  induction m with
  | nil => simp
  | cons p ps ih =>
    by_cases hp : p.1 = k
    · have h1 : (p.1 == k) = true := by simp [hp]
      have h2 : (p.1 == k') = false := by simp [hp, Ne.symm h]
      simp only [List.filter, h1, Bool.not_true, List.find?, h2] at ih ⊢
      exact ih
    · have h1 : (p.1 == k) = false := by simp [hp]
      simp only [List.filter, h1, Bool.not_false, List.find?]
      cases hc : (p.1 == k') with
      | true => rfl
      | false => exact ih

theorem mget_mset_self {β : Type} (m : List (Nat × β)) (k : Nat) (v d : β) :
    mget (mset m k v) k d = v := by
  simp [mget, lookupA_mset_self]

theorem mget_mset_ne {β : Type} (m : List (Nat × β)) (k k' : Nat) (v d : β)
    (h : k' ≠ k) : mget (mset m k v) k' d = mget m k' d := by
  simp [mget, lookupA_mset_ne _ _ _ _ h]

/-! ### The downward scan resolves the greatest-id owned record -/

theorem findLatestAux_spec (s : ContractState) (m : Address) :
    ∀ n, findLatestAux s m n =
      match ((List.range' 1 n).filter (fun i => (getOkr s i).owner == m)).getLast? with
      | some j => (getOkr s j).encryptedProgress
      | none => FHE.asEuint32 0 := by
  intro n
  induction n with
  | zero => simp [findLatestAux]
  | succ n ih =>
    have hr : List.range' 1 (n + 1) = List.range' 1 n ++ [n + 1] := by
      have h := List.range'_1_concat 1 n
      simpa [Nat.add_comm] using h
    rw [hr, List.filter_append]
    cases h : ((getOkr s (n + 1)).owner == m) with
    | true =>
      simp only [List.filter, h, List.getLast?_concat]
      simp [findLatestAux, h]
    | false =>
      simp only [List.filter, h, List.append_nil]
      simp only [findLatestAux, h]
      exact ih

theorem findLatest_eq_spec (s : ContractState) (m : Address) :
    findLatestEncryptedProgress s m = specLatestProgress s m := by
  unfold findLatestEncryptedProgress specLatestProgress latestOwnedId ownedIds
  exact findLatestAux_spec s m s.okrCount

theorem latestOwnedId_bounds (s : ContractState) (m : Address) (j : Nat)
    (h : latestOwnedId s m = some j) :
    1 ≤ j ∧ j ≤ s.okrCount ∧ (getOkr s j).owner = m := by
  have hmem : j ∈ ownedIds s m := List.mem_of_getLast?_eq_some h
  unfold ownedIds at hmem
  have h1 := List.mem_filter.mp hmem
  have h2 := List.mem_range'.mp h1.1
  obtain ⟨i, hi, hj⟩ := h2
  refine ⟨by omega, by omega, by simpa using h1.2⟩

theorem findLatestAux_greatest (s : ContractState) (m : Address) (j : Nat)
    (hj1 : 1 ≤ j) (hown : (getOkr s j).owner = m) :
    ∀ n, j ≤ n → (∀ i, j < i → i ≤ n → (getOkr s i).owner ≠ m) →
      findLatestAux s m n = (getOkr s j).encryptedProgress := by
  intro n
  induction n with
  | zero => intro h _; omega
  | succ n ih =>
    intro hle hno
    by_cases hj : j = n + 1
    · subst hj
      simp [findLatestAux, hown]
    · have hnot : (getOkr s (n + 1)).owner ≠ m := hno (n + 1) (by omega) (by omega)
      have hb : ((getOkr s (n + 1)).owner == m) = false := by simp [hnot]
      simp only [findLatestAux, hb]
      exact ih (by omega) (fun i hi1 hi2 => hno i hi1 (by omega))

/-! ### Congruence: the scan and the loop depend only on the record store,
the counter and the member list -/

theorem findLatestAux_congr (s s' : ContractState) (m : Address)
    (h : s.encryptedOkrs = s'.encryptedOkrs) :
    ∀ n, findLatestAux s m n = findLatestAux s' m n := by
  intro n
  induction n with
  | zero => rfl
  | succ n ih =>
    simp only [findLatestAux, getOkr, h]
    rw [ih]

theorem findLatest_congr (s s' : ContractState) (m : Address)
    (h1 : s.encryptedOkrs = s'.encryptedOkrs) (h2 : s.okrCount = s'.okrCount) :
    findLatestEncryptedProgress s m = findLatestEncryptedProgress s' m := by
  unfold findLatestEncryptedProgress
  rw [h2]
  exact findLatestAux_congr s s' m h1 _

theorem recomputeAcc_congr (s s' : ContractState)
    (h1 : s.encryptedOkrs = s'.encryptedOkrs) (h2 : s.okrCount = s'.okrCount) :
    ∀ ms acc, recomputeAcc s ms acc = recomputeAcc s' ms acc := by
  intro ms
  induction ms with
  | nil => intro acc; rfl
  | cons m ms ih =>
    intro acc
    simp only [recomputeAcc, findLatest_congr s s' m h1 h2]
    cases FHE.isInitializedE (findLatestEncryptedProgress s' m) with
    | true => simp only [if_true]; exact ih _
    | false => simp only [Bool.false_eq_true, if_false]; exact ih _

/-! ### The accumulator stays initialized and mirrors the plaintext fold -/

theorem recomputeAcc_isInit (s : ContractState) :
    ∀ ms acc, acc.isInit = true → (recomputeAcc s ms acc).isInit = true := by
  intro ms
  induction ms with
  | nil => intro acc h; exact h
  | cons m ms ih =>
    intro acc h
    simp only [recomputeAcc]
    cases hc : FHE.isInitializedE (findLatestEncryptedProgress s m) with
    | true => simp only [if_true]; exact ih _ rfl
    | false => simp only [Bool.false_eq_true, if_false]; exact ih _ h

theorem findLatest_isInit (s : ContractState) (m : Address)
    (hinit : ∀ i, 1 ≤ i → i ≤ s.okrCount → ((getOkr s i).encryptedProgress).isInit = true) :
    (findLatestEncryptedProgress s m).isInit = true := by
  rw [findLatest_eq_spec]
  unfold specLatestProgress
  cases hl : latestOwnedId s m with
  | none => rfl
  | some j =>
    obtain ⟨h1, h2, _⟩ := latestOwnedId_bounds s m j hl
    exact hinit j h1 h2

theorem recomputeAcc_val (s : ContractState)
    (hinit : ∀ i, 1 ≤ i → i ≤ s.okrCount → ((getOkr s i).encryptedProgress).isInit = true) :
    ∀ ms acc, acc.isInit = true →
      (recomputeAcc s ms acc).val =
        List.foldl (fun a v => (a + v) % 2 ^ 32) acc.val
          (ms.map (fun m => specLatestValue s m)) := by
  intro ms
  induction ms with
  | nil => intro acc _; rfl
  | cons m ms ih =>
    intro acc hacc
    have hfl := findLatest_eq_spec s m
    have hguard : FHE.isInitializedE (findLatestEncryptedProgress s m) = true := by
      simpa [FHE.isInitializedE] using findLatest_isInit s m hinit
    simp only [recomputeAcc, hguard, if_true]
    rw [ih (FHE.add acc (findLatestEncryptedProgress s m)) rfl]
    simp [FHE.add, specLatestValue, decryptMirror, hfl]

/-! ### Reachable-state invariants -/

/-- Project the id out of an `OKRSubmitted` event. -/
def submittedIdOf : Event → Option Nat
  | Event.OKRSubmitted i _ _ => some i
  | _ => none

/-- Invariants every reachable state satisfies: stored aggregates carry their
own key as `idHash` and an initialized sum; issued request ids are below the
allocator; no aggregate of team 0 was ever decrypted; and the `OKRSubmitted`
events carry exactly the ids 1..okrCount in order. -/
structure WF (s : ContractState) : Prop where
  agg_idHash : ∀ t a, lookupA s.teamAggregates t = some a → a.idHash = t
  agg_sum_isInit : ∀ t a, lookupA s.teamAggregates t = some a → a.encryptedSum.isInit = true
  req_lt : ∀ r, (lookupA s.requestToTeamId r).isSome → r < s.nextRequestId
  no_agg0_event : ∀ v, Event.AggregateDecrypted 0 v ∉ s.eventLog
  okr_events : s.eventLog.filterMap submittedIdOf = List.range' 1 s.okrCount

theorem wf_initialState : WF initialState := by
  constructor <;> simp [initialState, lookupA]

theorem mget_agg_idHash (s : ContractState) (h : WF s) (t : Bytes32) :
    (mget s.teamAggregates t zeroAggregate).idHash = t ∨
      (mget s.teamAggregates t zeroAggregate).idHash = 0 := by
  unfold mget
  cases hl : lookupA s.teamAggregates t with
  | none => right; rfl
  | some a => left; exact h.agg_idHash t a hl

theorem mget_agg0_idHash (s : ContractState) (h : WF s) :
    (mget s.teamAggregates 0 zeroAggregate).idHash = 0 := by
  rcases mget_agg_idHash s h 0 with h0 | h0 <;> exact h0

theorem wf_submit (s : ContractState) (h : WF s) (sender : Address) (now : Nat)
    (o k p : Euint32) (teamId : Bytes32) :
    WF (submitEncryptedOKR s sender now o k p teamId) := by
  have hr : List.range' 1 (s.okrCount + 1) = List.range' 1 s.okrCount ++ [s.okrCount + 1] := by
    have hc := List.range'_1_concat 1 s.okrCount
    simpa [Nat.add_comm] using hc
  constructor
  · intro t a hl
    exact h.agg_idHash t a (by simpa [submitEncryptedOKR] using hl)
  · intro t a hl
    exact h.agg_sum_isInit t a (by simpa [submitEncryptedOKR] using hl)
  · intro r hl
    exact h.req_lt r (by simpa [submitEncryptedOKR] using hl)
  · intro v hv
    simp only [submitEncryptedOKR, List.mem_append] at hv
    rcases hv with h1 | h1
    · exact h.no_agg0_event v h1
    · simp at h1
  · simp only [submitEncryptedOKR, List.filterMap_append, h.okr_events, hr]
    simp [submittedIdOf]

theorem wf_recompute (s : ContractState) (h : WF s) (now : Nat) (teamId : Bytes32) :
    WF (recomputeTeamAggregate s now teamId) := by
  constructor
  · intro t a hl
    simp only [recomputeTeamAggregate] at hl
    by_cases ht : t = teamId
    · subst ht
      rw [lookupA_mset_self] at hl
      cases hl
      rfl
    · rw [lookupA_mset_ne _ _ _ _ ht] at hl
      exact h.agg_idHash t a hl
  · intro t a hl
    simp only [recomputeTeamAggregate] at hl
    by_cases ht : t = teamId
    · subst ht
      rw [lookupA_mset_self] at hl
      cases hl
      exact recomputeAcc_isInit s _ _ rfl
    · rw [lookupA_mset_ne _ _ _ _ ht] at hl
      exact h.agg_sum_isInit t a hl
  · intro r hl
    exact h.req_lt r (by simpa [recomputeTeamAggregate] using hl)
  · intro v hv
    simp only [recomputeTeamAggregate, List.mem_append] at hv
    rcases hv with h1 | h1
    · exact h.no_agg0_event v h1
    · simp at h1
  · simp only [recomputeTeamAggregate, List.filterMap_append, h.okr_events]
    simp [submittedIdOf]

theorem wf_reqDecrypt (s : ContractState) (h : WF s) (teamId : Bytes32)
    (s' : ContractState)
    (hok : requestTeamAggregateDecryption s teamId = Except.ok s') : WF s' := by
  unfold requestTeamAggregateDecryption at hok
  by_cases hg : FHE.isInitializedE (mget s.teamAggregates teamId zeroAggregate).encryptedSum = true
  · rw [if_pos hg] at hok
    cases hok
    constructor
    · intro t a hl
      exact h.agg_idHash t a hl
    · intro t a hl
      exact h.agg_sum_isInit t a hl
    · intro r hl
      dsimp only at hl ⊢
      by_cases hrq : r = s.nextRequestId
      · omega
      · rw [lookupA_mset_ne _ _ _ _ hrq] at hl
        have := h.req_lt r hl
        omega
    · intro v hv
      simp only [List.mem_append] at hv
      rcases hv with h1 | h1
      · exact h.no_agg0_event v h1
      · simp at h1
    · simp only [List.filterMap_append, h.okr_events]
      simp [submittedIdOf]
  · rw [if_neg hg] at hok
    cases hok

theorem wf_callback (env : OracleEnv) (s : ContractState) (h : WF s)
    (rid c pf : Nat) (s' : ContractState)
    (hok : decryptTeamAggregate env s rid c pf = Except.ok s') : WF s' := by
  unfold decryptTeamAggregate at hok
  by_cases hg : (mget s.teamAggregates (mget s.requestToTeamId rid 0) zeroAggregate).idHash ≠ 0
  · rw [if_pos hg] at hok
    by_cases hs : env.checkSignatures rid c pf = true
    · rw [if_pos hs] at hok
      by_cases hc : c < 2 ^ 32
      · rw [if_pos hc] at hok
        cases hok
        have hteam : mget s.requestToTeamId rid 0 ≠ 0 := by
          intro h0
          rw [h0] at hg
          exact hg (mget_agg0_idHash s h)
        constructor
        · intro t a hl
          exact h.agg_idHash t a hl
        · intro t a hl
          exact h.agg_sum_isInit t a hl
        · intro r hl
          exact h.req_lt r hl
        · intro v hv
          simp only [List.mem_append] at hv
          rcases hv with h1 | h1
          · exact h.no_agg0_event v h1
          · simp only [List.mem_singleton, Event.AggregateDecrypted.injEq] at h1
            exact hteam h1.1.symm
        · simp only [List.filterMap_append, h.okr_events]
          simp [submittedIdOf]
      · rw [if_neg hc] at hok
        cases hok
    · rw [if_neg hs] at hok
      cases hok
  · rw [if_neg hg] at hok
    cases hok

theorem wf_step (env : OracleEnv) (s : ContractState) (h : WF s) (op : Op) :
    WF (step env s op) := by
  cases op with
  | submit sender now o k p teamId => exact wf_submit s h sender now o k p teamId
  | recompute now teamId => exact wf_recompute s h now teamId
  | reqDecrypt teamId =>
    simp only [step]
    cases hres : requestTeamAggregateDecryption s teamId with
    | ok s' => exact wf_reqDecrypt s h teamId s' hres
    | error _ => exact h
  | callback rid c pf =>
    simp only [step]
    cases hres : decryptTeamAggregate env s rid c pf with
    | ok s' => exact wf_callback env s h rid c pf s' hres
    | error _ => exact h

theorem wf_run (env : OracleEnv) (ops : List Op) : WF (run env ops) := by
  have hgen : ∀ (l : List Op) (s : ContractState), WF s → WF (l.foldl (step env) s) := by
    intro l
    induction l with
    | nil => intro s hs; exact hs
    | cons op l ih =>
      intro s hs
      exact ih (step env s op) (wf_step env s hs op)
  exact hgen ops initialState wf_initialState

theorem wf_reachable (s : ContractState) (h : Reachable s) : WF s := by
  obtain ⟨env, ops, rfl⟩ := h
  exact wf_run env ops

/-! ### Shapes of the fallible operations -/

/-- The aggregate a recompute stores under its team key. -/
theorem recompute_agg (s : ContractState) (now : Nat) (t : Bytes32) :
    mget (recomputeTeamAggregate s now t).teamAggregates t zeroAggregate =
      ⟨t, recomputeAcc s (mget s.teamMembers t []) (FHE.asEuint32 0), now⟩ := by
  simp only [recomputeTeamAggregate]
  rw [mget_mset_self]

/-- A successful decryption request records exactly the new pending mapping,
advances the allocator and emits `DecryptionRequested`. -/
theorem request_ok_shape (s : ContractState) (t : Bytes32) (s' : ContractState)
    (hok : requestTeamAggregateDecryption s t = Except.ok s') :
    s' = { s with
      requestToTeamId := mset s.requestToTeamId s.nextRequestId t
      nextRequestId := s.nextRequestId + 1
      eventLog := s.eventLog ++ [Event.DecryptionRequested s.nextRequestId] } := by
  unfold requestTeamAggregateDecryption at hok
  by_cases hg : FHE.isInitializedE (mget s.teamAggregates t zeroAggregate).encryptedSum = true
  · rw [if_pos hg] at hok
    cases hok
    rfl
  · rw [if_neg hg] at hok
    cases hok

/-- A successful callback — first or repeated — appends exactly one
`AggregateDecrypted` event for the request's recorded team and changes nothing
else: the source never marks a request fulfilled and never clears the
mapping. -/
theorem callback_ok_shape (env : OracleEnv) (s : ContractState) (rid c pf : Nat)
    (s' : ContractState)
    (hok : decryptTeamAggregate env s rid c pf = Except.ok s') :
    s' = { s with eventLog := s.eventLog ++
      [Event.AggregateDecrypted (mget s.requestToTeamId rid 0) c] } := by
  unfold decryptTeamAggregate at hok
  by_cases h1 : (mget s.teamAggregates (mget s.requestToTeamId rid 0) zeroAggregate).idHash ≠ 0
  · rw [if_pos h1] at hok
    by_cases h2 : env.checkSignatures rid c pf = true
    · rw [if_pos h2] at hok
      by_cases h3 : c < 2 ^ 32
      · rw [if_pos h3] at hok
        cases hok
        rfl
      · rw [if_neg h3] at hok
        cases hok
    · rw [if_neg h2] at hok
      cases hok
  · rw [if_neg h1] at hok
    cases hok

/-- No operation updates or deletes a stored record. -/
theorem step_preserves_okrs (env : OracleEnv) (s : ContractState) (op : Op)
    (i : Nat) (h1 : 1 ≤ i) (h2 : i ≤ s.okrCount) :
    lookupA (step env s op).encryptedOkrs i = lookupA s.encryptedOkrs i := by
  cases op with
  | submit sender now o k p teamId =>
    simp only [step, submitEncryptedOKR]
    exact lookupA_mset_ne _ _ _ _ (by omega)
  | recompute now teamId => rfl
  | reqDecrypt teamId =>
    simp only [step]
    cases hres : requestTeamAggregateDecryption s teamId with
    | error _ => rfl
    | ok s' =>
      rw [request_ok_shape s teamId s' hres]
  | callback rid c pf =>
    simp only [step]
    cases hres : decryptTeamAggregate env s rid c pf with
    | error _ => rfl
    | ok s' =>
      rw [callback_ok_shape env s rid c pf s' hres]

/-! ### Instrumented-loop lemmas -/

/-- The instrumented loop computes the same accumulator as the source loop. -/
theorem recomputeAccTrace_fst (s : ContractState) :
    ∀ ms acc tr, (recomputeAccTrace s ms acc tr).1 = recomputeAcc s ms acc := by
  intro ms
  induction ms with
  | nil => intro acc tr; rfl
  | cons m ms ih =>
    intro acc tr
    simp only [recomputeAccTrace, recomputeAcc]
    cases hc : FHE.isInitializedE (findLatestEncryptedProgress s m) with
    | true => simp only [if_true]; exact ih _ _
    | false => simp only [Bool.false_eq_true, if_false]; exact ih _ _

/-- The number of homomorphic adds is the number of membership entries whose
resolved latest ciphertext is initialized. -/
theorem recomputeAccTrace_length (s : ContractState) :
    ∀ ms acc tr, (recomputeAccTrace s ms acc tr).2.length =
      tr.length +
        (ms.filter (fun m => FHE.isInitializedE (findLatestEncryptedProgress s m))).length := by
  intro ms
  induction ms with
  | nil => intro acc tr; simp [recomputeAccTrace]
  | cons m ms ih =>
    intro acc tr
    simp only [recomputeAccTrace, List.filter_cons]
    cases hc : FHE.isInitializedE (findLatestEncryptedProgress s m) with
    | true =>
      simp only [hc, if_true]
      rw [ih]
      simp only [List.length_append, List.length_cons, List.length_nil]
      omega
    | false =>
      simp only [hc, Bool.false_eq_true, if_false]
      exact ih _ _

/-! ### Concrete fixtures for witnesses and counterexamples -/

/-- An oracle environment accepting every proof. -/
def envTrue : OracleEnv := ⟨fun _ _ _ => true⟩

/-- An authorization capability denying every caller. -/
def authDenyAll : AuthCapability := ⟨fun _ _ => false, fun _ _ => false⟩

/-- Two owners submit progress 40 and 60 to team 7. -/
def opsTwoMembers : List Op :=
  [Op.submit 1 0 (FHE.asEuint32 0) (FHE.asEuint32 0) (FHE.asEuint32 40) 7,
   Op.submit 2 0 (FHE.asEuint32 0) (FHE.asEuint32 0) (FHE.asEuint32 60) 7]

/-- Owner 9 submits progress 20 and later progress 80 to team 7. -/
def opsLatestWins : List Op :=
  [Op.submit 9 0 (FHE.asEuint32 0) (FHE.asEuint32 0) (FHE.asEuint32 20) 7,
   Op.submit 9 1 (FHE.asEuint32 0) (FHE.asEuint32 0) (FHE.asEuint32 80) 7]

/-- One member of team 7 whose only record carries an uninitialized progress
handle (a caller may pass the zero handle as calldata). -/
def opsUninitMember : List Op :=
  [Op.submit 3 0 Euint32.uninit Euint32.uninit Euint32.uninit 7]

/-- One member of team 7 whose only record carries an initialized progress. -/
def opsInitMember : List Op :=
  [Op.submit 3 0 Euint32.uninit Euint32.uninit (FHE.asEuint32 5) 7]

/-! ### Claims -/

/-- C1: for every team and every finite sequence of submissions (a reachable
state all of whose stored progress ciphertexts are initialized, as is the case
whenever callers submit genuine ciphertexts), decrypting — in the
plaintext-mirroring model — the `encryptedSum` stored by
`recomputeTeamAggregate` equals the plaintext sum, folded with the
capability's homomorphic addition (addition modulo 2^32) over every entry of
the team's membership list in list order, duplicates included, of that entry's
owner's latest submitted progress value, zero for an owner with no record. -/
theorem C1_aggregation_correct (s : ContractState) (now : Nat) (t : Bytes32)
    (hr : Reachable s)
    (hinit : ∀ i, 1 ≤ i → i ≤ s.okrCount →
      ((getOkr s i).encryptedProgress).isInit = true) :
    decryptMirror
        ((mget (recomputeTeamAggregate s now t).teamAggregates t zeroAggregate).encryptedSum) =
      List.foldl (fun a v => (a + v) % 2 ^ 32) 0
        ((mget s.teamMembers t []).map (fun m => specLatestValue s m)) := by
  rw [recompute_agg]
  have h := recomputeAcc_val s hinit (mget s.teamMembers t []) (FHE.asEuint32 0) rfl
  simpa [decryptMirror, FHE.asEuint32] using h

/-- Witness for C1: owners 1 and 2 submit 40 and 60 to team 7; the recomputed
aggregate decrypts to 100. -/
theorem C1_aggregation_correct_witness :
    decryptMirror
        ((mget (recomputeTeamAggregate (run envTrue opsTwoMembers) 5 7).teamAggregates
          7 zeroAggregate).encryptedSum) = 100 := by
  have hinit : ∀ i, 1 ≤ i → i ≤ (run envTrue opsTwoMembers).okrCount →
      ((getOkr (run envTrue opsTwoMembers) i).encryptedProgress).isInit = true := by
    intro i hi1 hi2
    have hc : (run envTrue opsTwoMembers).okrCount = 2 := by decide
    rw [hc] at hi2
    interval_cases i <;> decide
  exact (C1_aggregation_correct (run envTrue opsTwoMembers) 5 7
    ⟨envTrue, opsTwoMembers, rfl⟩ hinit).trans (by decide)

/-- C5: the record the aggregation resolves as an owner's latest is the stored
record with the greatest id among all records owned by that identity,
regardless of which team each record was submitted to (the scan never consults
teams). -/
theorem C5_latest_wins (s : ContractState) (m : Address) (j : Nat)
    (hj : IsGreatestOwnedId s m j) :
    findLatestEncryptedProgress s m = (getOkr s j).encryptedProgress := by
  obtain ⟨h1, h2, h3, h4⟩ := hj
  unfold findLatestEncryptedProgress
  exact findLatestAux_greatest s m j h1 h3 s.okrCount h2
    (fun i hi1 hi2 hown => absurd (h4 i (by omega) hi2 hown) (by omega))

/-- Witness for C5: owner 9 submits progress 20 then progress 80 to team 7;
the aggregation resolves 80 (the trivial encryption of 80) for owner 9. -/
theorem C5_latest_wins_witness :
    findLatestEncryptedProgress (run envTrue opsLatestWins) 9 = FHE.asEuint32 80 := by
  have hg : IsGreatestOwnedId (run envTrue opsLatestWins) 9 2 := by
    refine ⟨by decide, by decide, by decide, ?_⟩
    intro i hi1 hi2 hown
    have hc : (run envTrue opsLatestWins).okrCount = 2 := by decide
    rw [hc] at hi2
    omega
  exact (C5_latest_wins (run envTrue opsLatestWins) 9 2 hg).trans (by decide)

/-- C6: across every finite transaction sequence, the ids carried by the
`OKRSubmitted` events are exactly 1, 2, 3, … up to `okrCount`, in submission
order (so the first submission gets id 1, each later one a strictly larger id,
and ids are unique); and no operation ever updates or deletes a stored
record. -/
theorem C6_ids_sequential (env : OracleEnv) (ops : List Op) :
    (run env ops).eventLog.filterMap submittedIdOf =
        List.range' 1 (run env ops).okrCount ∧
    ∀ op i, 1 ≤ i → i ≤ (run env ops).okrCount →
      lookupA (step env (run env ops) op).encryptedOkrs i =
        lookupA (run env ops).encryptedOkrs i := by
  refine ⟨(wf_run env ops).okr_events, ?_⟩
  intro op i hi1 hi2
  exact step_preserves_okrs env (run env ops) op i hi1 hi2

/-- Witness for C6: after the two-submission trace the submitted ids are
[1, 2], and a further recompute leaves record 1 untouched. -/
theorem C6_ids_sequential_witness :
    (run envTrue opsTwoMembers).eventLog.filterMap submittedIdOf =
        List.range' 1 (run envTrue opsTwoMembers).okrCount ∧
    lookupA (step envTrue (run envTrue opsTwoMembers) (Op.recompute 9 7)).encryptedOkrs 1 =
      lookupA (run envTrue opsTwoMembers).encryptedOkrs 1 := by
  have h := C6_ids_sequential envTrue opsTwoMembers
  exact ⟨h.1, h.2 (Op.recompute 9 7) 1 (by decide) (by decide)⟩

/-- C7: two consecutive recomputes of the same team with no intervening
submissions store the same aggregate up to `lastUpdated`: in particular the
`encryptedSum` representations (and the `idHash`) are identical. -/
theorem C7_recompute_idempotent (s : ContractState) (now1 now2 : Nat) (t : Bytes32) :
    mget (recomputeTeamAggregate (recomputeTeamAggregate s now1 t) now2 t).teamAggregates
        t zeroAggregate =
      { mget (recomputeTeamAggregate s now1 t).teamAggregates t zeroAggregate with
        lastUpdated := now2 } := by
  rw [recompute_agg, recompute_agg]
  have hmem : (recomputeTeamAggregate s now1 t).teamMembers = s.teamMembers := rfl
  rw [hmem, recomputeAcc_congr (recomputeTeamAggregate s now1 t) s rfl rfl]

/-- Counterexample for C2: two reachable states whose team-7 membership lists
have the same length 1, yet the aggregation performs 0 homomorphic adds in one
(the sole member's record holds an uninitialized progress handle, which the
`FHE.isInitialized` branch skips) and 1 in the other — so the adds are neither
unconditional nor a function of the membership length alone. -/
theorem C2_counterexample :
    (mget (run envTrue opsUninitMember).teamMembers 7 []).length = 1 ∧
    (recomputeAddTrace (run envTrue opsUninitMember) 7).length = 0 ∧
    (mget (run envTrue opsInitMember).teamMembers 7 []).length = 1 ∧
    (recomputeAddTrace (run envTrue opsInitMember) 7).length = 1 := by
  decide

/-- C2 (amended): the aggregation performs one homomorphic add for exactly
those membership entries whose resolved latest ciphertext is initialized — it
skips an uninitialized resolved ciphertext by an `FHE.isInitialized` branch
rather than substituting zero; an owner with no record, however, does resolve
to the capability's (initialized) zero value and is therefore always added. -/
theorem C2_adds_match_initialized (s : ContractState) (t : Bytes32) :
    (recomputeAddTrace s t).length =
      ((mget s.teamMembers t []).filter
        (fun m => FHE.isInitializedE (findLatestEncryptedProgress s m))).length ∧
    ∀ m, latestOwnedId s m = none →
      findLatestEncryptedProgress s m = FHE.asEuint32 0 := by
  constructor
  · unfold recomputeAddTrace
    rw [recomputeAccTrace_length]
    simp
  · intro m hm
    rw [findLatest_eq_spec]
    unfold specLatestProgress
    rw [hm]

/-- Witness for the amended C2, at the one-initialized-member state; owner 99
has no record and resolves to the capability's zero value. -/
theorem C2_adds_match_initialized_witness :
    (recomputeAddTrace (run envTrue opsInitMember) 7).length =
      ((mget (run envTrue opsInitMember).teamMembers 7 []).filter
        (fun m => FHE.isInitializedE
          (findLatestEncryptedProgress (run envTrue opsInitMember) m))).length ∧
    findLatestEncryptedProgress (run envTrue opsInitMember) 99 = FHE.asEuint32 0 := by
  have h := C2_adds_match_initialized (run envTrue opsInitMember) 7
  exact ⟨h.1, h.2 99 (by decide)⟩

/-- A trace ending in two identical valid callbacks for the one request. -/
def opsDoubleCallback : List Op :=
  [Op.submit 1 0 (FHE.asEuint32 0) (FHE.asEuint32 0) (FHE.asEuint32 40) 7,
   Op.recompute 1 7,
   Op.reqDecrypt 7,
   Op.callback 0 40 0,
   Op.callback 0 40 0]

/-- Test for an `AggregateDecrypted` event. -/
def isAggDecryptedEvent : Event → Bool
  | Event.AggregateDecrypted _ _ => true
  | _ => false

/-- Counterexample for C3: after a fulfilled request, a second valid callback
for the same requestId emits a second `AggregateDecrypted` event (the event
count goes from 1 to 2), so it is not a no-op. -/
theorem C3_counterexample :
    ((run envTrue (opsDoubleCallback.take 4)).eventLog.filter isAggDecryptedEvent).length = 1 ∧
    ((run envTrue opsDoubleCallback).eventLog.filter isAggDecryptedEvent).length = 2 := by
  decide

/-- C3 (amended): the source never marks a request fulfilled, so a second
valid callback for an already-fulfilled requestId is not a no-op: it
re-executes, appending a second `AggregateDecrypted` event for the same
recorded team (with the same value whenever the same cleartexts are
presented), and changes no other state. -/
theorem C3_second_callback_reemits (env : OracleEnv) (s : ContractState)
    (rid c1 pf1 c2 pf2 : Nat) (s1 s2 : ContractState)
    (h1 : decryptTeamAggregate env s rid c1 pf1 = Except.ok s1)
    (h2 : decryptTeamAggregate env s1 rid c2 pf2 = Except.ok s2) :
    s2 = { s1 with eventLog := s1.eventLog ++
      [Event.AggregateDecrypted (mget s.requestToTeamId rid 0) c2] } := by
  have hs1 := callback_ok_shape env s rid c1 pf1 s1 h1
  have hs2 := callback_ok_shape env s1 rid c2 pf2 s2 h2
  subst hs1
  exact hs2

/-- Witness for the amended C3, on the double-callback trace. -/
theorem C3_second_callback_reemits_witness :
    run envTrue opsDoubleCallback =
      { run envTrue (opsDoubleCallback.take 4) with
        eventLog := (run envTrue (opsDoubleCallback.take 4)).eventLog ++
          [Event.AggregateDecrypted
            (mget (run envTrue (opsDoubleCallback.take 3)).requestToTeamId 0 0) 40] } := by
  have h1 : decryptTeamAggregate envTrue (run envTrue (opsDoubleCallback.take 3)) 0 40 0 =
      Except.ok (run envTrue (opsDoubleCallback.take 4)) := by rfl
  have h2 : decryptTeamAggregate envTrue (run envTrue (opsDoubleCallback.take 4)) 0 40 0 =
      Except.ok (run envTrue opsDoubleCallback) := by rfl
  exact C3_second_callback_reemits envTrue (run envTrue (opsDoubleCallback.take 3))
    0 40 0 40 0 _ _ h1 h2

/-- The state a checked submit leaves behind (an error is a revert). -/
def submitCheckedStep (auth : AuthCapability) (s : ContractState) (caller : Address)
    (now : Nat) (o k p : Euint32) (teamId : Bytes32) : ContractState :=
  match submitChecked auth s caller now o k p teamId with
  | Except.ok s' => s'
  | Except.error _ => s

/-- The state a checked decryption request leaves behind (an error is a revert). -/
def requestCheckedStep (auth : AuthCapability) (s : ContractState) (caller : Address)
    (teamId : Bytes32) : ContractState :=
  match requestDecryptionChecked auth s caller teamId with
  | Except.ok s' => s'
  | Except.error _ => s

/-- C4: both guarded operations consult the authorization capability before
touching state; a denied caller gets `Unauthorized` and the state — records,
membership, pending requests and the event log alike — is exactly as before. -/
theorem C4_unauthorized_no_change (auth : AuthCapability) (s : ContractState)
    (caller : Address) (now : Nat) (o k p : Euint32) (teamId : Bytes32)
    (hdeny1 : auth.canSubmit caller teamId = false)
    (hdeny2 : auth.canRequestDecryption caller teamId = false) :
    submitChecked auth s caller now o k p teamId = Except.error Err.Unauthorized ∧
    requestDecryptionChecked auth s caller teamId = Except.error Err.Unauthorized ∧
    submitCheckedStep auth s caller now o k p teamId = s ∧
    requestCheckedStep auth s caller teamId = s := by
  have e1 : submitChecked auth s caller now o k p teamId = Except.error Err.Unauthorized := by
    simp [submitChecked, hdeny1]
  have e2 : requestDecryptionChecked auth s caller teamId = Except.error Err.Unauthorized := by
    simp [requestDecryptionChecked, hdeny2]
  refine ⟨e1, e2, ?_, ?_⟩
  · simp [submitCheckedStep, e1]
  · simp [requestCheckedStep, e2]

/-- Witness for C4, with the deny-all capability at the deployed state. -/
theorem C4_unauthorized_no_change_witness :
    submitChecked authDenyAll initialState 1 0 (FHE.asEuint32 0) (FHE.asEuint32 0)
        (FHE.asEuint32 40) 7 = Except.error Err.Unauthorized ∧
    requestDecryptionChecked authDenyAll initialState 1 7 = Except.error Err.Unauthorized ∧
    submitCheckedStep authDenyAll initialState 1 0 (FHE.asEuint32 0) (FHE.asEuint32 0)
        (FHE.asEuint32 40) 7 = initialState ∧
    requestCheckedStep authDenyAll initialState 1 7 = initialState :=
  C4_unauthorized_no_change authDenyAll initialState 1 0 (FHE.asEuint32 0)
    (FHE.asEuint32 0) (FHE.asEuint32 40) 7 rfl rfl

/-- C8: when no aggregate has been computed for a team (no stored entry — in a
reachable state the stored sum is then the uninitialized default), requesting
decryption reverts with the "No aggregate" error (the spec's `EmptyAggregate`)
and, being a revert, changes nothing; when a computed aggregate exists, the
request succeeds, returns the allocator's fresh (never previously issued)
requestId, records the requestId-to-team mapping and emits
`DecryptionRequested`. -/
theorem C8_request_requires_aggregate (s : ContractState) (t : Bytes32)
    (hr : Reachable s) :
    (lookupA s.teamAggregates t = none →
      requestTeamAggregateDecryption s t = Except.error Err.EmptyAggregate ∧
      step envTrue s (Op.reqDecrypt t) = s) ∧
    (∀ a, lookupA s.teamAggregates t = some a →
      lookupA s.requestToTeamId s.nextRequestId = none ∧
      requestTeamAggregateDecryption s t = Except.ok { s with
        requestToTeamId := mset s.requestToTeamId s.nextRequestId t
        nextRequestId := s.nextRequestId + 1
        eventLog := s.eventLog ++ [Event.DecryptionRequested s.nextRequestId] }) := by
  constructor
  · intro hnone
    have hguard : ¬ FHE.isInitializedE (mget s.teamAggregates t zeroAggregate).encryptedSum = true := by
      unfold mget
      rw [hnone]
      simp [FHE.isInitializedE, zeroAggregate, Euint32.uninit]
    have herr : requestTeamAggregateDecryption s t = Except.error Err.EmptyAggregate := by
      unfold requestTeamAggregateDecryption
      rw [if_neg hguard]
    exact ⟨herr, by simp [step, herr]⟩
  · intro a hsome
    have hwf := wf_reachable s hr
    constructor
    · cases hl : lookupA s.requestToTeamId s.nextRequestId with
      | none => rfl
      | some b =>
        have := hwf.req_lt s.nextRequestId (by rw [hl]; rfl)
        omega
    · have hguard : FHE.isInitializedE (mget s.teamAggregates t zeroAggregate).encryptedSum = true := by
        unfold mget
        rw [hsome]
        exact hwf.agg_sum_isInit t a hsome
      unfold requestTeamAggregateDecryption
      rw [if_pos hguard]

/-- Witness for C8: at deployment no aggregate exists for team 5 and the
request reverts; after a submission and a recompute for team 7, the stored
aggregate exists and the fresh request id 0 was never issued before. -/
theorem C8_request_requires_aggregate_witness :
    (requestTeamAggregateDecryption initialState 5 = Except.error Err.EmptyAggregate ∧
      step envTrue initialState (Op.reqDecrypt 5) = initialState) ∧
    lookupA (run envTrue (opsDoubleCallback.take 2)).requestToTeamId
      (run envTrue (opsDoubleCallback.take 2)).nextRequestId = none := by
  refine ⟨(C8_request_requires_aggregate initialState 5 ⟨envTrue, [], rfl⟩).1 rfl, ?_⟩
  exact ((C8_request_requires_aggregate (run envTrue (opsDoubleCallback.take 2)) 7
    ⟨envTrue, opsDoubleCallback.take 2, rfl⟩).2
    ⟨7, FHE.add (FHE.asEuint32 0) (FHE.asEuint32 40), 1⟩ (by decide)).1

/-- C9: a callback whose requestId was never issued finds team 0 in the
request mapping, and in every reachable state the aggregate slot of team 0 has
`idHash = 0`, so the callback reverts at the team-validity guard (the source's
"Invalid team" revert, realizing the spec's `UnknownRequest`): no event is
emitted and the state is unchanged. -/
theorem C9_unknown_request_rejected (env : OracleEnv) (s : ContractState)
    (rid c pf : Nat) (hr : Reachable s)
    (hunk : lookupA s.requestToTeamId rid = none) :
    decryptTeamAggregate env s rid c pf = Except.error Err.InvalidTeam ∧
    step env s (Op.callback rid c pf) = s := by
  have hteam : mget s.requestToTeamId rid 0 = 0 := by
    unfold mget
    rw [hunk]
    rfl
  have herr : decryptTeamAggregate env s rid c pf = Except.error Err.InvalidTeam := by
    unfold decryptTeamAggregate
    rw [hteam, if_neg (by simp [mget_agg0_idHash s (wf_reachable s hr)])]
  exact ⟨herr, by simp [step, herr]⟩

/-- Witness for C9: requestId 3 was never issued at the deployed state. -/
theorem C9_unknown_request_rejected_witness :
    decryptTeamAggregate envTrue initialState 3 7 0 = Except.error Err.InvalidTeam ∧
    step envTrue initialState (Op.callback 3 7 0) = initialState :=
  C9_unknown_request_rejected envTrue initialState 3 7 0 ⟨envTrue, [], rfl⟩ rfl

/-- The all-zero team gets an aggregate, a request for it is issued, and the
request maps to team 0. -/
def opsZeroTeam : List Op :=
  [Op.submit 1 0 (FHE.asEuint32 0) (FHE.asEuint32 0) (FHE.asEuint32 40) 0,
   Op.recompute 0 0,
   Op.reqDecrypt 0]

/-- C10: for the all-zero team identifier, a decryption request can be issued
once an aggregate has been computed (the stored sum is initialized), but the
stored aggregate's `idHash` equals the team identifier 0, so every callback
whose requestId resolves to team 0 — valid proof or not — reverts at the
team-validity guard; consequently no `AggregateDecrypted` event for team 0 is
ever emitted in any reachable state. -/
theorem C10_zero_team_unfulfillable (env : OracleEnv) (s : ContractState)
    (now rid c pf : Nat) (hr : Reachable s) :
    (∃ s', requestTeamAggregateDecryption (recomputeTeamAggregate s now 0) 0 =
      Except.ok s') ∧
    (mget (recomputeTeamAggregate s now 0).teamAggregates 0 zeroAggregate).idHash = 0 ∧
    (mget s.requestToTeamId rid 0 = 0 →
      decryptTeamAggregate env s rid c pf = Except.error Err.InvalidTeam) ∧
    (∀ v, Event.AggregateDecrypted 0 v ∉ s.eventLog) := by
  have hwf := wf_reachable s hr
  refine ⟨?_, ?_, ?_, hwf.no_agg0_event⟩
  · have hguard : FHE.isInitializedE
        (mget (recomputeTeamAggregate s now 0).teamAggregates 0 zeroAggregate).encryptedSum = true := by
      rw [recompute_agg]
      exact recomputeAcc_isInit s _ _ rfl
    unfold requestTeamAggregateDecryption
    rw [if_pos hguard]
    exact ⟨_, rfl⟩
  · rw [recompute_agg]
  · intro h0
    unfold decryptTeamAggregate
    rw [h0, if_neg (by simp [mget_agg0_idHash s hwf])]

/-- Witness for C10: after submitting to team 0, recomputing and issuing the
request (which gets id 0 and maps to team 0), the callback for id 0 reverts at
the guard even under an all-accepting oracle. -/
theorem C10_zero_team_unfulfillable_witness :
    (∃ s', requestTeamAggregateDecryption
      (recomputeTeamAggregate (run envTrue opsZeroTeam) 4 0) 0 = Except.ok s') ∧
    decryptTeamAggregate envTrue (run envTrue opsZeroTeam) 0 9 0 =
      Except.error Err.InvalidTeam := by
  have h := C10_zero_team_unfulfillable envTrue (run envTrue opsZeroTeam) 4 0 9 0
    ⟨envTrue, opsZeroTeam, rfl⟩
  exact ⟨h.1, h.2.2.1 (by decide)⟩

end EncryptedOKRPlatform
